import Mathlib

/-!
Shallow embedding of the `/save-exercise` write path of `src/server.js`
(the Fitracker editor server).

The embedding covers:
  * the JS truthiness conventions used by the handler for form fields,
  * `String.prototype.trim` and the identifier regexp `/^[a-z0-9-]+$/`,
  * the recursive validator/normalizer `processVariations`,
  * the `allIds` document scan (with the edit-mode exclusion),
  * the merge/update logic (create in group vs. replace by `originalBaseId`),
  * the final sorting and the optimistic-concurrency SHA gate.

Machine-level remarks on the translation:
  * JS strings are Lean `String`s; `undefined`-able fields are `Option`s.
  * `a.localeCompare(b)` (default locale) orders by primary strength, i.e.
    case-insensitively; it is modelled as lexicographic comparison of the
    lowercased character lists.  `Array.prototype.sort` is a stable sort
    (ES2019), modelled by the stable `List.insertionSort`.
  * `String.prototype.trim` is modelled on ASCII whitespace.
  * A `commit` is recorded as the document value handed to
    `octokit.repos.createOrUpdateFileContents`; error responses carry no
    commit.
-/

namespace Fitracker

/-- JS truthiness of a form field that is either a string or `undefined`:
`undefined` and the empty string are falsy. -/
def truthyS : Option String → Bool
  | none => false
  | some s => !(s == "")

/-- Value of the `isUnilateral` form field / JSON field: a string (form
submission), a boolean (JSON round-trip of a processed tree), or absent. -/
inductive RawVal where
  | str (s : String)
  | bool (b : Bool)
  | undef
deriving DecidableEq

/-- JS strict equality test `x === 'true'` used at line 225 of the source. -/
def RawVal.isTrueLiteral : RawVal → Bool
  | .str s => s == "true"
  | _ => false

/-- ASCII whitespace as removed by `String.prototype.trim`. -/
def isJsWS (c : Char) : Bool :=
  c == ' ' || c == '\t' || c == '\n' || c == '\r' || c == '\x0b' || c == '\x0c'

/-- Drop whitespace from both ends of a character list. -/
def trimChars (l : List Char) : List Char :=
  ((l.dropWhile isJsWS).reverse.dropWhile isJsWS).reverse

/-- Model of `s.trim()`. -/
def jsTrim (s : String) : String := ⟨trimChars s.data⟩

/-- Model of `s.toLowerCase()` (ASCII letters). -/
def jsToLower (s : String) : String := ⟨s.data.map Char.toLower⟩

/-- A character allowed by the identifier regexp class `[a-z0-9-]`. -/
def idChar (c : Char) : Bool :=
  ('a' ≤ c && c ≤ 'z') || ('0' ≤ c && c ≤ '9') || c == '-'

/-- Model of `/^[a-z0-9-]+$/.test s`. -/
def testIdPattern (s : String) : Bool :=
  !(s.data.isEmpty) && s.data.all idChar

mutual
/-- A node of the submitted (raw, form-decoded) tree: fields may be missing,
`isUnilateral` is whatever the wire carried. -/
inductive RawTree where
  | mk (id name imageUrl : Option String) (isUnilateral : RawVal)
      (subVariations executionTypes : RawKids) : RawTree
/-- A children field of a raw node: absent (`undefined`) or an array. -/
inductive RawKids where
  | undef : RawKids
  | arr (items : RawForest) : RawKids
/-- An array of raw nodes. -/
inductive RawForest where
  | nil : RawForest
  | cons (head : RawTree) (tail : RawForest) : RawForest
end

mutual
/-- A node produced by `processVariations`: trimmed `id`/`name`, optional
`imageUrl`, boolean `isUnilateral`, and optionally-present children fields. -/
inductive PTree where
  | mk (id name : String) (imageUrl : Option String) (isUnilateral : Bool)
      (subVariations executionTypes : PKids) : PTree
/-- A children field of a processed node: deleted when empty. -/
inductive PKids where
  | undef : PKids
  | arr (items : PForest) : PKids
/-- An array of processed nodes. -/
inductive PForest where
  | nil : PForest
  | cons (head : PTree) (tail : PForest) : PForest
end

def PTree.id : PTree → String
  | .mk i _ _ _ _ _ => i

def PTree.name : PTree → String
  | .mk _ n _ _ _ _ => n

def PTree.imageUrl : PTree → Option String
  | .mk _ _ u _ _ _ => u

def PTree.isUnilateral : PTree → Bool
  | .mk _ _ _ b _ _ => b

def PTree.subVariations : PTree → PKids
  | .mk _ _ _ _ s _ => s

def PTree.executionTypes : PTree → PKids
  | .mk _ _ _ _ _ e => e

def PForest.toList : PForest → List PTree
  | .nil => []
  | .cons t ts => t :: PForest.toList ts

/-- A stored top-level exercise entry of the JSON document
(`{ id, name, variations? }`). -/
structure Exercise where
  id : String
  name : String
  variations : Option (List PTree)

/-- A group of the stored JSON document (`{ group, items }`). -/
structure GroupEntry where
  group : String
  items : List Exercise

/-- Ids of an execution-type array (innermost level of the `allIds` scan). -/
def etIdsF : PForest → List String
  | .nil => []
  | .cons t ts => t.id :: etIdsF ts

def etIdsK : PKids → List String
  | .undef => []
  | .arr l => etIdsF l

/-- Ids of a sub-variation array: each id plus its execution-type ids. -/
def svIdsF : PForest → List String
  | .nil => []
  | .cons t ts => t.id :: (etIdsK t.executionTypes ++ svIdsF ts)

def svIdsK : PKids → List String
  | .undef => []
  | .arr l => svIdsF l

/-- Ids of one stored variation: its id plus all deeper ids. -/
def varIds (v : PTree) : List String :=
  v.id :: svIdsK v.subVariations

/-- All ids appearing in one stored top-level exercise, at all 4 levels,
in the order the `allIds` scan of lines 194-204 visits them. -/
def exIds (e : Exercise) : List String :=
  e.id :: (match e.variations with
    | none => []
    | some vs => vs.flatMap varIds)

/-- Whether the `allIds` scan keeps a top-level entry: the source condition
`!editMode || item.id !== originalBaseId` (line 195).  When the entry is
skipped, none of its nested ids are collected either. -/
def includeInScan (editMode originalBaseId : Option String) (itemId : String) : Prop :=
  truthyS editMode = false ∨ some itemId ≠ originalBaseId

instance (em obi : Option String) (i : String) : Decidable (includeInScan em obi i) := by
  unfold includeInScan; infer_instance

/-- The `allIds` set of lines 193-205, as the list of ids added to it. -/
def buildAllIds (doc : List GroupEntry) (editMode originalBaseId : Option String) :
    List String :=
  doc.flatMap fun g => g.items.flatMap fun item =>
    if includeInScan editMode originalBaseId item.id then exIds item else []

/-- The value `item.id ? item.id.trim() : ''` (and likewise for `name`)
computed at lines 213-214. -/
def fieldStr (o : Option String) : String :=
  if truthyS o then jsTrim (o.getD "") else ""

/-- The `imageUrl: item.imageUrl || undefined` of line 224: a falsy value
(missing or empty string) leaves the field out. -/
def normImg : Option String → Option String
  | some s => if s = "" then none else some s
  | none => none

/-- The three per-node validation checks of lines 215-217, in source order:
invalid id, empty name, duplicate id (global set first, then siblings).
Returns the first error message, or `none` when the node passes. -/
def nodeCheck (levelName itemId itemName : String)
    (allIds idsInLevel : List String) : Option String :=
  if itemId = "" ∨ testIdPattern itemId = false then
    some ("ID de " ++ levelName ++ " inválido.")
  else if itemName = "" then
    some ("Nombre de " ++ levelName ++ " vacío.")
  else if itemId ∈ allIds ∨ itemId ∈ idsInLevel then
    some ("ID de " ++ levelName ++ " \x27" ++ itemId ++ "\x27 duplicado.")
  else
    none

/-- The `if (... .length === 0) delete ...` of lines 230/234: an empty
processed children array means the field is removed. -/
def mkKids : PForest → PKids
  | .nil => .undef
  | .cons a b => .arr (.cons a b)

/-- The processed node of lines 221-226 with its children field (placed in
`subVariations` at the variation level, in `executionTypes` at the
sub-variation level, and never present at any other level). -/
def mkNode (levelName : String) (rid rname rimg : Option String) (runi : RawVal)
    (kids : PKids) : PTree :=
  if levelName = "Variación" then
    .mk (fieldStr rid) (fieldStr rname) (normImg rimg) (RawVal.isTrueLiteral runi)
      kids .undef
  else if levelName = "Sub-Variación" then
    .mk (fieldStr rid) (fieldStr rname) (normImg rimg) (RawVal.isTrueLiteral runi)
      .undef kids
  else
    .mk (fieldStr rid) (fieldStr rname) (normImg rimg) (RawVal.isTrueLiteral runi)
      .undef .undef

mutual
/-- Processing of one raw node by `processVariations` (lines 212-236):
trim id and name, check the id pattern, the non-empty name, and duplicates
against the global and the sibling-level sets, then recurse into the
children field selected by `levelName`.  Returns the processed node and the
updated `allIds` and `idsInLevel` sets (the JS code mutates shared `Set`s;
here they are threaded explicitly, recording insertion by consing).
A missing children field and an empty children array both end as a removed
field (`mkKids`), matching the guard-plus-delete of lines 228-235. -/
def procT (levelName : String) : RawTree → List String → List String →
    Except String (PTree × List String × List String)
  | .mk rid rname rimg runi rsub rexec, allIds, idsInLevel =>
    match nodeCheck levelName (fieldStr rid) (fieldStr rname) allIds idsInLevel with
    | some e => .error e
    | none =>
      if levelName = "Variación" then
        match processVariations rsub "Sub-Variación" (fieldStr rid :: allIds) with
        | .error e => .error e
        | .ok (pl, allIds2) =>
          .ok (mkNode levelName rid rname rimg runi (mkKids pl),
            allIds2, fieldStr rid :: idsInLevel)
      else if levelName = "Sub-Variación" then
        match processVariations rexec "Tipo Ejecución" (fieldStr rid :: allIds) with
        | .error e => .error e
        | .ok (pl, allIds2) =>
          .ok (mkNode levelName rid rname rimg runi (mkKids pl),
            allIds2, fieldStr rid :: idsInLevel)
      else
        .ok (mkNode levelName rid rname rimg runi .undef,
          fieldStr rid :: allIds, fieldStr rid :: idsInLevel)
/-- The entry point `processVariations(levelData, levelName, parentId)`
(line 209): a missing children value yields `[]` without touching `allIds`;
an array is processed with a fresh `idsInLevel` set.  The `parentId`
argument of the source is unused there and omitted here. -/
def processVariations (levelData : RawKids) (levelName : String)
    (allIds : List String) : Except String (PForest × List String) :=
  match levelData with
  | .undef => .ok (.nil, allIds)
  | .arr l => procF levelName l allIds []
/-- Processing of a raw array: the `.map` of line 212, threading the shared
`allIds` set and the per-call `idsInLevel` set left to right.  A thrown
validation error aborts the whole array. -/
def procF (levelName : String) : RawForest → List String → List String →
    Except String (PForest × List String)
  | .nil, allIds, _ => .ok (.nil, allIds)
  | .cons t ts, allIds, idsInLevel =>
    match procT levelName t allIds idsInLevel with
    | .error e => .error e
    | .ok (pt, allIds1, idsInLevel1) =>
      match procF levelName ts allIds1 idsInLevel1 with
      | .error e => .error e
      | .ok (pts, allIds2) => .ok (.cons pt pts, allIds2)
end

/-- Lexicographic comparison of character lists (by code point). -/
def lexLe : List Char → List Char → Bool
  | [], _ => true
  | _ :: _, [] => false
  | a :: as, b :: bs => if a < b then true else if b < a then false else lexLe as bs

/-- Model of the `a.localeCompare(b) <= 0` ordering used by every `.sort`
call of the handler: default-locale collation compares case-insensitively
at primary strength. -/
def nameLe (a b : String) : Prop :=
  lexLe (jsToLower a).data (jsToLower b).data = true

instance (a b : String) : Decidable (nameLe a b) := by
  unfold nameLe; infer_instance

/-- Group ordering of line 291: `a.group.localeCompare(b.group)`. -/
def groupLe (a b : GroupEntry) : Prop := nameLe a.group b.group

instance (a b : GroupEntry) : Decidable (groupLe a b) := by
  unfold groupLe; infer_instance

/-- Item ordering of line 292: `a.name.localeCompare(b.name)`. -/
def exLe (a b : Exercise) : Prop := nameLe a.name b.name

instance (a b : Exercise) : Decidable (exLe a b) := by
  unfold exLe; infer_instance

/-- Variation ordering of line 255. -/
def varLe (a b : PTree) : Prop := nameLe a.name b.name

instance (a b : PTree) : Decidable (varLe a b) := by
  unfold varLe; infer_instance

/-- The final re-sort of lines 290-292: groups by name, then every group's
items by name. -/
def sortDoc (doc : List GroupEntry) : List GroupEntry :=
  (List.insertionSort groupLe doc).map fun g =>
    { g with items := List.insertionSort exLe g.items }

/-- Replacement of the first item with the given id (the
`findIndex` / `items[itemIndex] = exerciseObject` of lines 265-268);
`none` when no item matches. -/
def replaceItem : List Exercise → String → Exercise → Option (List Exercise)
  | [], _, _ => none
  | e :: rest, o, ex =>
    if e.id = o then some (ex :: rest)
    else match replaceItem rest o ex with
      | some r => some (e :: r)
      | none => none

/-- The edit-mode group loop of lines 263-273: scan groups in order, replace
in the first group containing the original id, and stop. -/
def replaceFirst : List GroupEntry → String → Exercise → Option (List GroupEntry)
  | [], _, _ => none
  | g :: rest, o, ex =>
    match replaceItem g.items o ex with
    | some items1 => some ({ g with items := items1 } :: rest)
    | none =>
      match replaceFirst rest o ex with
      | some r => some (g :: r)
      | none => none

/-- The create path of lines 280-285: find the group by case-insensitive
name, appending a fresh empty group when absent, then push the exercise. -/
def createApply : List GroupEntry → String → Exercise → List GroupEntry
  | [], gname, ex => [⟨gname, [ex]⟩]
  | g :: rest, gname, ex =>
    if jsToLower g.group = jsToLower gname then
      { g with items := g.items ++ [ex] } :: rest
    else
      g :: createApply rest gname ex

/-- The form-decoded body of a `/save-exercise` request (line 169). -/
structure SaveReq where
  editMode : Option String
  originalBaseId : Option String
  fileSha : Option String
  group : Option String
  baseId : Option String
  baseName : Option String
  variations : RawKids

/-- The remote store as the handler sees it: the decoded document plus the
version token (content SHA) it currently reports. -/
structure StoreState where
  exercises : List GroupEntry
  sha : String

/-- Outcome of one `/save-exercise` request: the HTTP status sent, and the
document committed to the store (`none` when no commit call is reached). -/
structure SaveResult where
  status : Nat
  committed : Option (List GroupEntry)

/-- The `/save-exercise` handler (lines 168-319): basic field validation
(400), the SHA conflict gate (409), the `allIds` scan and base-id duplicate
check (400), `processVariations` (400 on validation error), then either
replacement by `originalBaseId` (a missing original throws, surfacing as
500 from the catch-all) or insertion into the group, followed by the final
sort and the commit. -/
def saveExercise (st : StoreState) (req : SaveReq) : SaveResult :=
  if truthyS req.group = false ∨ truthyS req.baseId = false ∨
     truthyS req.baseName = false ∨
     testIdPattern (req.baseId.getD "") = false ∨
     truthyS req.fileSha = false then
    ⟨400, none⟩
  else
    let gname := req.group.getD ""
    let bId := req.baseId.getD ""
    let bName := req.baseName.getD ""
    if st.sha ≠ req.fileSha.getD "" then
      ⟨409, none⟩
    else
      let allIds := buildAllIds st.exercises req.editMode req.originalBaseId
      if bId ∈ allIds then
        ⟨400, none⟩
      else
        match processVariations req.variations "Variación" allIds with
        | .error _ => ⟨400, none⟩
        | .ok (pv, _) =>
          let exObj : Exercise :=
            { id := bId, name := bName,
              variations := match pv with
                | .nil => none
                | .cons a b =>
                  some (List.insertionSort varLe (PForest.toList (.cons a b))) }
          if req.editMode = some "true" ∧ truthyS req.originalBaseId = true then
            match replaceFirst st.exercises (req.originalBaseId.getD "") exObj with
            | none => ⟨500, none⟩
            | some doc1 => ⟨200, some (sortDoc doc1)⟩
          else
            ⟨200, some (sortDoc (createApply st.exercises gname exObj))⟩

/-- Total number of top-level exercises across all groups. -/
def totalItems (doc : List GroupEntry) : Nat :=
  (doc.map fun g => g.items.length).sum

/-- The top-level ids of a document, group by group. -/
def topIds (doc : List GroupEntry) : List String :=
  doc.flatMap fun g => g.items.map Exercise.id

/-- The basic field validation of line 173:
`!group || !baseId || !baseName || !/^[a-z0-9-]+$/.test(baseId) || !fileSha`
all pass. -/
def basicOk (req : SaveReq) : Prop :=
  truthyS req.group = true ∧ truthyS req.baseId = true ∧
  truthyS req.baseName = true ∧
  testIdPattern (req.baseId.getD "") = true ∧ truthyS req.fileSha = true

instance (req : SaveReq) : Decidable (basicOk req) := by
  unfold basicOk; infer_instance

mutual
/-- A processed node as it re-enters the validator after a JSON
serialize/deserialize round-trip: `id` and `name` are present strings,
`imageUrl` is kept as stored (an omitted field stays omitted),
`isUnilateral` is a JSON boolean, and children fields are arrays when
present. -/
def toRawT : PTree → RawTree
  | .mk i n img u sub exec => .mk (some i) (some n) img (.bool u) (toRawK sub) (toRawK exec)
def toRawK : PKids → RawKids
  | .undef => .undef
  | .arr l => .arr (toRawF l)
def toRawF : PForest → RawForest
  | .nil => .nil
  | .cons t ts => .cons (toRawT t) (toRawF ts)
end

mutual
/-- A processed tree with every `isUnilateral` flag forced to `false`. -/
def clearUniT : PTree → PTree
  | .mk i n img _ sub exec => .mk i n img false (clearUniK sub) (clearUniK exec)
def clearUniK : PKids → PKids
  | .undef => .undef
  | .arr l => .arr (clearUniF l)
def clearUniF : PForest → PForest
  | .nil => .nil
  | .cons t ts => .cons (clearUniT t) (clearUniF ts)
end

mutual
/-- Every node of a processed tree carries a trim-fixed id, a trim-fixed
non-empty name. -/
def trimmedT : PTree → Bool
  | .mk i n _ _ sub exec =>
    (jsTrim i == i) && (jsTrim n == n) && !(n == "") && trimmedK sub && trimmedK exec
def trimmedK : PKids → Bool
  | .undef => true
  | .arr l => trimmedF l
def trimmedF : PForest → Bool
  | .nil => true
  | .cons t ts => trimmedT t && trimmedF ts
end

/-! ## Ordering lemmas for the modelled `localeCompare` sort -/

theorem lexLe_total : ∀ a b : List Char, lexLe a b = true ∨ lexLe b a = true := by
  intro a
  induction a with
  | nil => intro b; left; rfl
  | cons x xs ih =>
    intro b
    cases b with
    | nil => right; rfl
    | cons y ys =>
      rcases lt_trichotomy x y with h | h | h
      · left; simp [lexLe, h]
      · subst h
        rcases ih ys with h2 | h2
        · left; simp [lexLe, h2]
        · right; simp [lexLe, h2]
      · right; simp [lexLe, h]

theorem lexLe_trans :
    ∀ a b c : List Char, lexLe a b = true → lexLe b c = true → lexLe a c = true := by
  intro a
  induction a with
  | nil => intro b c _ _; rfl
  | cons x xs ih =>
    intro b c hab hbc
    cases b with
    | nil => simp [lexLe] at hab
    | cons y ys =>
      cases c with
      | nil => simp [lexLe] at hbc
      | cons z zs =>
        rcases lt_trichotomy x y with hxy | hxy | hxy
        · rcases lt_trichotomy y z with hyz | hyz | hyz
          · simp [lexLe, lt_trans hxy hyz]
          · subst hyz; simp [lexLe, hxy]
          · simp [lexLe, hyz, lt_asymm hyz] at hbc
        · subst hxy
          rcases lt_trichotomy x z with hyz | hyz | hyz
          · simp [lexLe, hyz]
          · subst hyz
            simp only [lexLe, lt_irrefl, if_false] at hab hbc ⊢
            exact ih ys zs hab hbc
          · simp [lexLe, hyz, lt_asymm hyz] at hbc
        · simp [lexLe, hxy, lt_asymm hxy] at hab

instance : IsTotal GroupEntry groupLe := ⟨fun _ _ => lexLe_total _ _⟩
instance : IsTrans GroupEntry groupLe := ⟨fun _ _ _ => lexLe_trans _ _ _⟩
instance : IsTotal Exercise exLe := ⟨fun _ _ => lexLe_total _ _⟩
instance : IsTrans Exercise exLe := ⟨fun _ _ _ => lexLe_trans _ _ _⟩
instance : IsTotal PTree varLe := ⟨fun _ _ => lexLe_total _ _⟩
instance : IsTrans PTree varLe := ⟨fun _ _ _ => lexLe_trans _ _ _⟩

/-! ## Facts about the final sort -/

theorem sorted_sortDoc (d : List GroupEntry) : List.Sorted groupLe (sortDoc d) := by
  unfold sortDoc
  refine List.pairwise_map.mpr ?_
  exact List.sorted_insertionSort groupLe d

theorem items_sorted_sortDoc (d : List GroupEntry) :
    ∀ g ∈ sortDoc d, List.Sorted exLe g.items := by
  intro g hg
  unfold sortDoc at hg
  rcases List.mem_map.mp hg with ⟨g0, _, rfl⟩
  exact List.sorted_insertionSort exLe g0.items

theorem totalItems_sortDoc (d : List GroupEntry) : totalItems (sortDoc d) = totalItems d := by
  unfold totalItems sortDoc
  rw [List.map_map]
  have hcong : ((List.insertionSort groupLe d).map
      ((fun g : GroupEntry => g.items.length) ∘
        fun g => { g with items := List.insertionSort exLe g.items })) =
      ((List.insertionSort groupLe d).map fun g => g.items.length) := by
    refine List.map_congr_left ?_
    intro g _
    simp only [Function.comp]
    exact (List.perm_insertionSort exLe g.items).length_eq
  rw [hcong]
  exact ((List.perm_insertionSort groupLe d).map fun g => g.items.length).sum_eq

theorem mem_topIds_sortDoc (d : List GroupEntry) (s : String) :
    s ∈ topIds (sortDoc d) ↔ s ∈ topIds d := by
  unfold topIds sortDoc
  constructor
  · intro h
    rcases List.mem_flatMap.mp h with ⟨g, hg, hs⟩
    rcases List.mem_map.mp hg with ⟨g0, hg0, rfl⟩
    refine List.mem_flatMap.mpr ⟨g0, (List.perm_insertionSort groupLe d).mem_iff.mp hg0, ?_⟩
    rcases List.mem_map.mp hs with ⟨e, he, rfl⟩
    exact List.mem_map.mpr ⟨e, (List.perm_insertionSort exLe g0.items).mem_iff.mp he, rfl⟩
  · intro h
    rcases List.mem_flatMap.mp h with ⟨g0, hg0, hs⟩
    refine List.mem_flatMap.mpr
      ⟨{ g0 with items := List.insertionSort exLe g0.items },
        List.mem_map.mpr ⟨g0, (List.perm_insertionSort groupLe d).mem_iff.mpr hg0, rfl⟩, ?_⟩
    rcases List.mem_map.mp hs with ⟨e, he, rfl⟩
    exact List.mem_map.mpr ⟨e, (List.perm_insertionSort exLe g0.items).mem_iff.mpr he, rfl⟩

theorem committed_sortDoc_form (st : StoreState) (req : SaveReq) (doc1 : List GroupEntry)
    (h : (saveExercise st req).committed = some doc1) : ∃ d0, doc1 = sortDoc d0 := by
  simp only [saveExercise] at h
  split at h
  · simp at h
  · split at h
    · simp at h
    · split at h
      · simp at h
      · split at h
        · simp at h
        · split at h
          · split at h
            · simp at h
            · exact ⟨_, (Option.some.inj h).symm⟩
          · exact ⟨_, (Option.some.inj h).symm⟩

/-- C9: after either intent, the committed document is sorted: groups are
ordered by group name under the (case-insensitive) collation, and within
every group the items are ordered by exercise name the same way. -/
theorem c9_committed_sorted (st : StoreState) (req : SaveReq) (doc1 : List GroupEntry)
    (h : (saveExercise st req).committed = some doc1) :
    List.Sorted groupLe doc1 ∧ ∀ g ∈ doc1, List.Sorted exLe g.items := by
  rcases committed_sortDoc_form st req doc1 h with ⟨d0, rfl⟩
  exact ⟨sorted_sortDoc d0, items_sorted_sortDoc d0⟩

/-- Witness for `c9_committed_sorted`: a concrete create request whose
committed document is sorted by name, not by insertion order. -/
theorem c9_committed_sorted_witness :
    List.Sorted groupLe
        [⟨"Back", [⟨"c", "Axe", none⟩]⟩, ⟨"chest", [⟨"a", "apple", none⟩]⟩] ∧
      ∀ g ∈ [GroupEntry.mk "Back" [⟨"c", "Axe", none⟩],
             GroupEntry.mk "chest" [⟨"a", "apple", none⟩]],
        List.Sorted exLe g.items :=
  c9_committed_sorted ⟨[⟨"chest", [⟨"a", "apple", none⟩]⟩], "s"⟩
    ⟨none, none, some "s", some "Back", some "c", some "Axe", .undef⟩
    [⟨"Back", [⟨"c", "Axe", none⟩]⟩, ⟨"chest", [⟨"a", "apple", none⟩]⟩] rfl

/-- C2: a validation failure of any node at any level (invalid id, empty
name, or duplicate id, surfaced as a `processVariations` error, or the
base-id duplicate check) aborts the submission: no commit is made, and
when the request passed the earlier gates the response is the validation
error status 400. -/
theorem c2_validation_aborts (st : StoreState) (req : SaveReq) :
    (∀ msg, processVariations req.variations "Variación"
        (buildAllIds st.exercises req.editMode req.originalBaseId) = .error msg →
      (saveExercise st req).committed = none ∧
      (basicOk req → st.sha = req.fileSha.getD "" →
        req.baseId.getD "" ∉ buildAllIds st.exercises req.editMode req.originalBaseId →
        saveExercise st req = ⟨400, none⟩)) ∧
    (req.baseId.getD "" ∈ buildAllIds st.exercises req.editMode req.originalBaseId →
      (saveExercise st req).committed = none ∧
      (basicOk req → st.sha = req.fileSha.getD "" →
        saveExercise st req = ⟨400, none⟩)) := by
  constructor
  · intro msg hproc
    constructor
    · simp only [saveExercise]
      split
      · rfl
      · split
        · rfl
        · split
          · rfl
          · rw [hproc]
    · intro _hb hsha hdup
      simp only [saveExercise]
      split
      · rfl
      · split
        · rename_i hc; exact absurd hsha hc
        · split
          · rfl
          · rename_i heq
            rw [hproc] at heq
            exact Except.noConfusion heq
  · intro hdup
    constructor
    · simp only [saveExercise]
      split
      · rfl
      · split
        · rfl
        · rfl
    · intro _hb hsha
      simp only [saveExercise]
      split
      · rfl
      · split
        · rename_i hc; exact absurd hsha hc
        · rfl

/-- Witness for `c2_validation_aborts`: the spec example, a variation
submitted with id `Incline!`, fails validation with the invalid-id message
and the request ends as a 400 with no commit. -/
theorem c2_validation_aborts_witness :
    saveExercise ⟨[], "s"⟩
      ⟨none, none, some "s", some "Chest", some "bench", some "Bench",
        .arr (.cons (.mk (some "Incline!") (some "Incline") none .undef .undef .undef) .nil)⟩ =
      ⟨400, none⟩ :=
  (((c2_validation_aborts ⟨[], "s"⟩
      ⟨none, none, some "s", some "Chest", some "bench", some "Bench",
        .arr (.cons (.mk (some "Incline!") (some "Incline") none .undef .undef .undef) .nil)⟩).1
    "ID de Variación inválido." rfl).2 (by decide) rfl (by decide))

/-- C1 counterexample: a request that presents the stale token `T0` while
the store reports `T1`, but whose `group` field is missing, is rejected
with 400 (the basic field validation) rather than with the Conflict status
409 the claim promises for every such request. -/
theorem c1_counterexample :
    saveExercise ⟨[], "T1"⟩ ⟨none, none, some "T0", none, some "x", some "X", .undef⟩ =
      ⟨400, none⟩ ∧ ("T0" : String) ≠ "T1" ∧ (400 : Nat) ≠ 409 :=
  ⟨rfl, by decide, by decide⟩

/-- C1 (amended): a write request presenting a version token different from
the token the store currently reports never commits; it is answered with
Conflict (409) when the basic field validation passes, and with 400
otherwise. -/
theorem c1_stale_token (st : StoreState) (req : SaveReq) (fs : String)
    (h1 : req.fileSha = some fs) (h2 : st.sha ≠ fs) :
    (saveExercise st req).committed = none ∧
    (basicOk req → saveExercise st req = ⟨409, none⟩) := by
  have hgd : req.fileSha.getD "" = fs := by rw [h1]; rfl
  constructor
  · simp only [saveExercise]
    split
    · rfl
    · split
      · rfl
      · rename_i hc
        rw [hgd] at hc
        exact absurd h2 hc
  · intro hb
    simp only [saveExercise]
    split
    · rename_i hc
      obtain ⟨b1, b2, b3, b4, b5⟩ := hb
      rcases hc with h | h | h | h | h <;> simp_all
    · split
      · rfl
      · rename_i hc
        rw [hgd] at hc
        exact absurd h2 hc

/-- Witness for `c1_stale_token`: a well-formed request with a stale token
gets the Conflict response and no commit. -/
theorem c1_stale_token_witness :
    saveExercise ⟨[], "T1"⟩ ⟨none, none, some "T0", some "G", some "x", some "X", .undef⟩ =
      ⟨409, none⟩ :=
  (c1_stale_token ⟨[], "T1"⟩ ⟨none, none, some "T0", some "G", some "x", some "X", .undef⟩
    "T0" rfl (by decide)).2 (by decide)

/-- C3 counterexample: the document holds exercise `a` with nested
variation id `v1`; an update of `a` that resubmits a variation with the
same id `v1` succeeds (200 and a commit), although the claim asserts the
nested ids inside the edited exercise still count as taken, which would
demand a DuplicateId rejection. -/
theorem c3_counterexample :
    saveExercise
      ⟨[⟨"G", [⟨"a", "A", some [.mk "v1" "V1" none false .undef .undef]⟩]⟩], "s"⟩
      ⟨some "true", some "a", some "s", some "G", some "a", some "A2",
        .arr (.cons (.mk (some "v1") (some "New V") none .undef .undef .undef) .nil)⟩ =
      ⟨200, some [⟨"G", [⟨"a", "A2", some [.mk "v1" "New V" none false .undef .undef]⟩]⟩]⟩ :=
  rfl

theorem scanItems_update (items : List Exercise) (o : String) :
    (items.flatMap fun item =>
      if includeInScan (some "true") (some o) item.id then exIds item else []) =
    ((items.filter fun e => !(e.id == o)).flatMap fun item =>
      if includeInScan none none item.id then exIds item else []) := by
  induction items with
  | nil => rfl
  | cons e t ih =>
    have hn : includeInScan none none e.id := Or.inl rfl
    by_cases h : e.id = o
    · have h1 : ¬ includeInScan (some "true") (some o) e.id := by
        intro hinc
        rcases hinc with hc | hc
        · exact absurd hc (by decide)
        · exact hc (by rw [h])
      rw [List.flatMap_cons, if_neg h1, List.filter_cons, if_neg (by simp [h]),
        List.nil_append, ih]
    · have h1 : includeInScan (some "true") (some o) e.id :=
        Or.inr fun hc => h (Option.some.inj hc)
      rw [List.flatMap_cons, if_pos h1, List.filter_cons, if_pos (by simp [h]),
        List.flatMap_cons, if_pos hn, ih]

/-- C3 (amended): during an update, the duplicate-id scan excludes the
whole top-level entry whose id equals `originalBaseId` — its own id and
every id nested inside it — while every identifier of every other entry,
at all 4 levels, still counts: the collected id set equals the one scanned
from the document with the matching entries removed. -/
theorem c3_update_excludes_whole_entry (doc : List GroupEntry) (o : String) :
    buildAllIds doc (some "true") (some o) =
    buildAllIds (doc.map fun g => { g with items := g.items.filter fun e => !(e.id == o) })
      none none := by
  unfold buildAllIds
  rw [List.flatMap_map]
  induction doc with
  | nil => rfl
  | cons g gs ih =>
    rw [List.flatMap_cons, List.flatMap_cons, ih]
    congr 1
    exact scanItems_update g.items o

theorem replaceItem_none_iff (items : List Exercise) (o : String) (ex : Exercise) :
    replaceItem items o ex = none ↔ ∀ e ∈ items, e.id ≠ o := by
  induction items with
  | nil => simp [replaceItem]
  | cons e t ih =>
    simp only [replaceItem]
    split
    · rename_i h
      refine iff_of_false (fun hc => Option.noConfusion hc) ?_
      intro hall
      exact hall e (List.mem_cons_self e t) h
    · rename_i h
      split
      · rename_i r hr
        refine iff_of_false (fun hc => Option.noConfusion hc) ?_
        intro hall
        have hn : replaceItem t o ex = none :=
          ih.mpr fun x hx => hall x (List.mem_cons_of_mem _ hx)
        rw [hr] at hn
        exact Option.noConfusion hn
      · rename_i hr
        refine iff_of_true rfl ?_
        intro x hx
        rcases List.mem_cons.mp hx with rfl | hx
        · exact h
        · exact ih.mp hr x hx

theorem replaceItem_some (items : List Exercise) (o : String) (ex : Exercise)
    (r : List Exercise) (h : replaceItem items o ex = some r) :
    ∃ pre e post, items = pre ++ e :: post ∧ e.id = o ∧ r = pre ++ ex :: post ∧
      ∀ x ∈ pre, x.id ≠ o := by
  induction items generalizing r with
  | nil => exact Option.noConfusion h
  | cons e t ih =>
    simp only [replaceItem] at h
    split at h
    · rename_i he
      cases h
      exact ⟨[], e, t, rfl, he, rfl, by simp⟩
    · rename_i he
      split at h
      · rename_i r0 hr0
        cases h
        rcases ih r0 hr0 with ⟨pre, e1, post, h1, h2, h3, h4⟩
        refine ⟨e :: pre, e1, post, by simp [h1], h2, by simp [h3], ?_⟩
        intro x hx
        rcases List.mem_cons.mp hx with rfl | hx
        · exact he
        · exact h4 x hx
      · exact Option.noConfusion h

theorem mem_topIds_cons (g : GroupEntry) (gs : List GroupEntry) (o : String) :
    o ∈ topIds (g :: gs) ↔ (∃ e ∈ g.items, e.id = o) ∨ o ∈ topIds gs := by
  simp [topIds, List.flatMap_cons, List.mem_append, List.mem_map]

theorem replaceFirst_none_iff (doc : List GroupEntry) (o : String) (ex : Exercise) :
    replaceFirst doc o ex = none ↔ o ∉ topIds doc := by
  induction doc with
  | nil => simp [replaceFirst, topIds]
  | cons g gs ih =>
    simp only [replaceFirst]
    split
    · rename_i items1 hi
      rcases replaceItem_some _ _ _ _ hi with ⟨pre, e, post, h1, h2, _, _⟩
      refine iff_of_false (fun hc => Option.noConfusion hc) ?_
      intro hc
      exact hc ((mem_topIds_cons g gs o).mpr (Or.inl ⟨e, by simp [h1], h2⟩))
    · rename_i hi
      have hg : ∀ e ∈ g.items, e.id ≠ o := (replaceItem_none_iff _ _ _).mp hi
      split
      · rename_i r hr
        refine iff_of_false (fun hc => Option.noConfusion hc) ?_
        intro hno
        have hgs : o ∉ topIds gs := fun hm =>
          hno ((mem_topIds_cons g gs o).mpr (Or.inr hm))
        have := ih.mpr hgs
        rw [hr] at this
        exact Option.noConfusion this
      · rename_i hr
        refine iff_of_true rfl ?_
        intro hm
        rcases (mem_topIds_cons g gs o).mp hm with ⟨e, he, heid⟩ | hm2
        · exact hg e he heid
        · exact ih.mp hr hm2

theorem replaceFirst_some (doc : List GroupEntry) (o : String) (ex : Exercise)
    (doc1 : List GroupEntry) (h : replaceFirst doc o ex = some doc1) :
    ∃ gpre g gpost items1, doc = gpre ++ g :: gpost ∧
      replaceItem g.items o ex = some items1 ∧
      doc1 = gpre ++ { g with items := items1 } :: gpost ∧
      ∀ g2 ∈ gpre, ∀ e ∈ g2.items, e.id ≠ o := by
  induction doc generalizing doc1 with
  | nil => exact Option.noConfusion h
  | cons g gs ih =>
    simp only [replaceFirst] at h
    split at h
    · rename_i items1 hi
      cases h
      exact ⟨[], g, gs, items1, rfl, hi, rfl, by simp⟩
    · rename_i hi
      split at h
      · rename_i r hr
        cases h
        rcases ih r hr with ⟨gpre, g1, gpost, items1, h1, h2, h3, h4⟩
        refine ⟨g :: gpre, g1, gpost, items1, by simp [h1], h2, by simp [h3], ?_⟩
        intro g2 hg2 e he
        rcases List.mem_cons.mp hg2 with rfl | hg2
        · exact (replaceItem_none_iff _ _ _).mp hi e he
        · exact h4 g2 hg2 e he
      · exact Option.noConfusion h

theorem totalItems_replaceFirst (doc : List GroupEntry) (o : String) (ex : Exercise)
    (doc1 : List GroupEntry) (h : replaceFirst doc o ex = some doc1) :
    totalItems doc1 = totalItems doc := by
  rcases replaceFirst_some doc o ex doc1 h with ⟨gpre, g, gpost, items1, rfl, h2, rfl, _⟩
  rcases replaceItem_some _ _ _ _ h2 with ⟨pre, e, post, hitems, _, hr, _⟩
  simp [totalItems, List.map_append, List.sum_append, hitems, hr]

theorem topIds_append (a b : List GroupEntry) : topIds (a ++ b) = topIds a ++ topIds b := by
  simp [topIds, List.flatMap_append]

theorem topIds_cons (g : GroupEntry) (gs : List GroupEntry) :
    topIds (g :: gs) = g.items.map Exercise.id ++ topIds gs := by
  simp [topIds, List.flatMap_cons]

theorem not_mem_topIds_replaceFirst (doc : List GroupEntry) (o : String) (ex : Exercise)
    (doc1 : List GroupEntry) (h : replaceFirst doc o ex = some doc1)
    (hnd : (topIds doc).Nodup) (hne : ex.id ≠ o) : o ∉ topIds doc1 := by
  rcases replaceFirst_some doc o ex doc1 h with ⟨gpre, g, gpost, items1, rfl, h2, rfl, _⟩
  rcases replaceItem_some _ _ _ _ h2 with ⟨pre, e, post, hitems, heid, hr, _⟩
  have hdoc : topIds (gpre ++ g :: gpost) =
      (topIds gpre ++ pre.map Exercise.id) ++
        o :: (post.map Exercise.id ++ topIds gpost) := by
    rw [topIds_append, topIds_cons, hitems]
    simp [heid, List.map_append]
  have hdoc1 : topIds (gpre ++ { g with items := items1 } :: gpost) =
      (topIds gpre ++ pre.map Exercise.id) ++
        ex.id :: (post.map Exercise.id ++ topIds gpost) := by
    rw [topIds_append, topIds_cons]
    simp only [hr]
    simp [List.map_append]
  rw [hdoc, List.nodup_middle] at hnd
  have hno := (List.nodup_cons.mp hnd).1
  rw [hdoc1]
  intro hc
  rcases List.mem_append.mp hc with hx | hy
  · exact hno (List.mem_append.mpr (Or.inl hx))
  · rcases List.mem_cons.mp hy with rfl | hy2
    · exact hne rfl
    · exact hno (List.mem_append.mpr (Or.inr hy2))

/-- C7: for an Update intent (edit mode with a non-empty original id), on a
document whose top-level ids are unique, a successful request leaves the
total number of top-level exercises unchanged and removes the original id
unless it equals the submitted id (in-place replacement); and when no entry
matches the original id, nothing is committed, and with all earlier gates
passed the request fails as the fatal 500 produced by the thrown
not-found error. -/
theorem c7_update_semantics (st : StoreState) (req : SaveReq) (o : String)
    (hem : req.editMode = some "true") (hobi : req.originalBaseId = some o)
    (ho : o ≠ "") (hnd : (topIds st.exercises).Nodup) :
    (∀ doc1, saveExercise st req = ⟨200, some doc1⟩ →
      totalItems doc1 = totalItems st.exercises ∧
      (o ≠ req.baseId.getD "" → o ∉ topIds doc1)) ∧
    (o ∉ topIds st.exercises →
      (saveExercise st req).committed = none ∧
      (basicOk req → st.sha = req.fileSha.getD "" →
        req.baseId.getD "" ∉ buildAllIds st.exercises req.editMode req.originalBaseId →
        (∀ pr, processVariations req.variations "Variación"
            (buildAllIds st.exercises req.editMode req.originalBaseId) = .ok pr →
          saveExercise st req = ⟨500, none⟩))) := by
  have htr : truthyS req.originalBaseId = true := by
    rw [hobi]; simp [truthyS, ho]
  have hcond : req.editMode = some "true" ∧ truthyS req.originalBaseId = true := ⟨hem, htr⟩
  have hgd : req.originalBaseId.getD "" = o := by rw [hobi]; rfl
  constructor
  · intro doc1 h
    simp only [saveExercise] at h
    split at h
    · simp at h
    · split at h
      · simp at h
      · split at h
        · simp at h
        · split at h
          · simp at h
          · split at h
            · simp at h
            · rename_i doc0 hrf
              have hd : doc1 = sortDoc doc0 :=
                (Option.some.inj (congrArg SaveResult.committed h)).symm
              rw [hgd] at hrf
              constructor
              · rw [hd, totalItems_sortDoc]
                exact totalItems_replaceFirst _ _ _ _ hrf
              · intro hneq
                rw [hd, mem_topIds_sortDoc]
                exact not_mem_topIds_replaceFirst _ _ _ _ hrf hnd fun hc => hneq hc.symm
  · intro hno
    constructor
    · simp only [saveExercise]
      split
      · rfl
      · split
        · rfl
        · split
          · rfl
          · split
            · rfl
            · rw [hgd, (replaceFirst_none_iff st.exercises o _).mpr hno]
    · intro hb hsha hdup pr hpr
      simp only [saveExercise]
      split
      · rename_i hc
        obtain ⟨b1, b2, b3, b4, b5⟩ := hb
        rcases hc with hx | hx | hx | hx | hx <;> simp_all
      · split
        · rename_i hc; exact absurd hsha hc
        · split
          · rename_i heq
            rw [hpr] at heq
            exact Except.noConfusion heq
          · rw [hgd, (replaceFirst_none_iff st.exercises o _).mpr hno]

/-- Witness for `c7_update_semantics`: updating exercise `a` to `c` in a
two-exercise group keeps the count at two and drops the id `a`. -/
theorem c7_update_semantics_witness :
    totalItems [⟨"G", [⟨"b", "B", none⟩, ⟨"c", "C", none⟩]⟩] =
        totalItems [⟨"G", [⟨"a", "A", none⟩, ⟨"b", "B", none⟩]⟩] ∧
      "a" ∉ topIds [⟨"G", [⟨"b", "B", none⟩, ⟨"c", "C", none⟩]⟩] :=
  have h := (c7_update_semantics ⟨[⟨"G", [⟨"a", "A", none⟩, ⟨"b", "B", none⟩]⟩], "s"⟩
      ⟨some "true", some "a", some "s", some "G", some "c", some "C", .undef⟩ "a"
      rfl rfl (by decide) (by decide)).1
      [⟨"G", [⟨"b", "B", none⟩, ⟨"c", "C", none⟩]⟩] rfl
  ⟨h.1, h.2 (by decide)⟩

theorem createApply_no_match (doc : List GroupEntry) (gname : String) (ex : Exercise)
    (h : ∀ g ∈ doc, jsToLower g.group ≠ jsToLower gname) :
    createApply doc gname ex = doc ++ [⟨gname, [ex]⟩] := by
  induction doc with
  | nil => rfl
  | cons g gs ih =>
    have hg := h g (List.mem_cons_self g gs)
    simp only [createApply, if_neg hg]
    rw [ih fun g2 hg2 => h g2 (List.mem_cons_of_mem _ hg2)]
    rfl

theorem length_filter_sortDoc (d : List GroupEntry) (p : String → Bool) :
    ((sortDoc d).filter fun g => p g.group).length =
      (d.filter fun g => p g.group).length := by
  unfold sortDoc
  rw [← List.countP_eq_length_filter, ← List.countP_eq_length_filter, List.countP_map]
  exact (List.perm_insertionSort groupLe d).countP_eq _

theorem length_filter_group_sortDoc (d : List GroupEntry) (s0 : String) :
    ((sortDoc d).filter fun g => jsToLower g.group == s0).length =
      (d.filter fun g => jsToLower g.group == s0).length :=
  length_filter_sortDoc d fun s => jsToLower s == s0

theorem mem_sortDoc (d : List GroupEntry) (g : GroupEntry) :
    g ∈ sortDoc d ↔
      ∃ g0 ∈ d, g = { g0 with items := List.insertionSort exLe g0.items } := by
  unfold sortDoc
  constructor
  · intro h
    rcases List.mem_map.mp h with ⟨g0, hg0, rfl⟩
    exact ⟨g0, (List.mem_insertionSort groupLe).mp hg0, rfl⟩
  · rintro ⟨g0, hg0, rfl⟩
    exact List.mem_map.mpr ⟨g0, (List.mem_insertionSort groupLe).mpr hg0, rfl⟩

/-- C8: a Create intent whose group name matches no existing group
case-insensitively yields a document with exactly one group of that name,
holding the new exercise with the variations field omitted when empty; in
particular the bench-press example against the empty document produces
exactly the one-group, one-item document. -/
theorem c8_create_new_group :
    (∀ (st : StoreState) (req : SaveReq) (gname : String) (doc1 : List GroupEntry),
      req.editMode = none →
      req.group = some gname →
      (∀ g ∈ st.exercises, jsToLower g.group ≠ jsToLower gname) →
      saveExercise st req = ⟨200, some doc1⟩ →
      ((doc1.filter fun g => jsToLower g.group == jsToLower gname).length = 1 ∧
        ∃ g ∈ doc1, g.group = gname ∧ ∃ e ∈ g.items,
          e.id = req.baseId.getD "" ∧ e.name = req.baseName.getD "" ∧
          (req.variations = .undef → e.variations = none))) ∧
    saveExercise ⟨[], "sha1"⟩
        ⟨none, none, some "sha1", some "Chest", some "bench-press", some "Bench Press",
          .undef⟩ =
      ⟨200, some [⟨"Chest", [⟨"bench-press", "Bench Press", none⟩]⟩]⟩ := by
  constructor
  · intro st req gname doc1 hem hgr hnog h
    have hgg : req.group.getD "" = gname := by rw [hgr]; rfl
    simp only [saveExercise] at h
    split at h
    · simp at h
    · split at h
      · simp at h
      · split at h
        · simp at h
        · split at h
          · simp at h
          · rename_i pv ids heq
            rw [if_neg (by rw [hem]; simp)] at h
            have hd := (Option.some.inj (congrArg SaveResult.committed h)).symm
            rw [hgg] at hd
            rw [createApply_no_match _ _ _ hnog] at hd
            constructor
            · rw [hd, length_filter_group_sortDoc, List.filter_append]
              have h1 : (st.exercises.filter fun g => jsToLower g.group == jsToLower gname) =
                  [] := by
                rw [List.filter_eq_nil_iff]
                intro g hg
                simpa using hnog g hg
              rw [h1]
              simp
            · rw [hd]
              refine ⟨_, (mem_sortDoc _ _).mpr
                  ⟨_, List.mem_append_right _ (List.mem_cons_self _ _), rfl⟩,
                rfl, _, List.mem_cons_self _ _, rfl, rfl, ?_⟩
              intro hv
              rw [hv] at heq
              simp only [processVariations] at heq
              cases heq
              rfl
  · rfl

/-- Witness for `c8_create_new_group`: the bench-press create against the
empty document satisfies the general uniqueness-and-membership property. -/
theorem c8_create_new_group_witness :
    ([GroupEntry.mk "Chest" [⟨"bench-press", "Bench Press", none⟩]].filter
        fun g => jsToLower g.group == jsToLower "Chest").length = 1 ∧
      ∃ g ∈ [GroupEntry.mk "Chest" [⟨"bench-press", "Bench Press", none⟩]],
        g.group = "Chest" ∧ ∃ e ∈ g.items,
          e.id = (some "bench-press").getD "" ∧
          e.name = (some "Bench Press").getD "" ∧
          ((RawKids.undef : RawKids) = .undef → e.variations = none) :=
  c8_create_new_group.1 ⟨[], "sha1"⟩
    ⟨none, none, some "sha1", some "Chest", some "bench-press", some "Bench Press", .undef⟩
    "Chest" [⟨"Chest", [⟨"bench-press", "Bench Press", none⟩]⟩]
    rfl rfl (by simp) rfl

theorem flatMap_congr_mem {α β : Type} (l : List α) (f g : α → List β)
    (h : ∀ a ∈ l, f a = g a) : l.flatMap f = l.flatMap g := by
  induction l with
  | nil => rfl
  | cons a t ih =>
    rw [List.flatMap_cons, List.flatMap_cons, h a (List.mem_cons_self a t),
      ih fun x hx => h x (List.mem_cons_of_mem _ hx)]

theorem buildAllIds_congr (doc : List GroupEntry) (em1 obi1 em2 obi2 : Option String)
    (h : ∀ g ∈ doc, ∀ e ∈ g.items,
      (includeInScan em1 obi1 e.id ↔ includeInScan em2 obi2 e.id)) :
    buildAllIds doc em1 obi1 = buildAllIds doc em2 obi2 := by
  unfold buildAllIds
  refine flatMap_congr_mem _ _ _ fun g hg => ?_
  refine flatMap_congr_mem _ _ _ fun e he => ?_
  by_cases hi : includeInScan em1 obi1 e.id
  · rw [if_pos hi, if_pos ((h g hg e he).mp hi)]
  · rw [if_neg hi, if_neg fun hc => hi ((h g hg e he).mpr hc)]

/-- C10: a request with `editMode` set to `'true'` but `originalBaseId`
absent or empty is not rejected and is not treated as an update: it behaves
exactly like the same request submitted without edit mode, i.e. as a Create
intent (given the document invariant that stored ids are non-empty). -/
theorem c10_edit_without_original_is_create (st : StoreState) (req : SaveReq)
    (_hem : req.editMode = some "true")
    (hobi : req.originalBaseId = none ∨ req.originalBaseId = some "")
    (hids : ∀ g ∈ st.exercises, ∀ e ∈ g.items, e.id ≠ "") :
    saveExercise st req =
      saveExercise st { req with editMode := none, originalBaseId := none } := by
  have htr : truthyS req.originalBaseId = false := by
    rcases hobi with h | h <;> rw [h] <;> rfl
  have hscan : buildAllIds st.exercises req.editMode req.originalBaseId =
      buildAllIds st.exercises none none := by
    refine buildAllIds_congr _ _ _ _ _ fun g hg e he => ?_
    have hr : includeInScan none none e.id := Or.inl rfl
    refine iff_of_true ?_ hr
    rcases hobi with hob | hob
    · rw [hob]
      exact Or.inr (by simp)
    · rw [hob]
      exact Or.inr fun hc => hids g hg e he (Option.some.inj hc)
  have hc1 : (req.editMode = some "true" ∧ truthyS req.originalBaseId = true) = False := by
    simp [htr]
  have hc2 : ((none : Option String) = some "true" ∧
      truthyS (none : Option String) = true) = False := by
    simp
  simp only [saveExercise, hscan, hc1, hc2, if_false]

/-- Witness for `c10_edit_without_original_is_create`: a concrete
edit-mode request without an original id behaves as the create request. -/
theorem c10_edit_without_original_is_create_witness :
    saveExercise ⟨[⟨"G", [⟨"b", "B", none⟩]⟩], "s"⟩
        ⟨some "true", none, some "s", some "G", some "c", some "C", .undef⟩ =
      saveExercise ⟨[⟨"G", [⟨"b", "B", none⟩]⟩], "s"⟩
        ⟨none, none, some "s", some "G", some "c", some "C", .undef⟩ :=
  c10_edit_without_original_is_create ⟨[⟨"G", [⟨"b", "B", none⟩]⟩], "s"⟩
    ⟨some "true", none, some "s", some "G", some "c", some "C", .undef⟩
    rfl (Or.inl rfl) (by decide)

/-! ## Facts about trimming and the identifier pattern -/

theorem dropWhile_head_not {α : Type} (p : α → Bool) (l : List α) (a : α) (t : List α)
    (h : List.dropWhile p l = a :: t) : p a = false := by
  induction l with
  | nil => exact List.noConfusion h
  | cons x xs ih =>
    by_cases hx : p x = true
    · rw [List.dropWhile_cons, if_pos hx] at h
      exact ih h
    · rw [List.dropWhile_cons, if_neg hx] at h
      cases h
      exact Bool.eq_false_iff.mpr hx

theorem dropWhile_eq_self_of_head {α : Type} (p : α → Bool) (l : List α)
    (h : ∀ a t, l = a :: t → p a = false) : List.dropWhile p l = l := by
  cases l with
  | nil => rfl
  | cons a t =>
    rw [List.dropWhile_cons, if_neg (by rw [h a t rfl]; exact Bool.false_ne_true)]

theorem getLast?_dropWhile {α : Type} (p : α → Bool) (l : List α)
    (h : List.dropWhile p l ≠ []) :
    (List.dropWhile p l).getLast? = l.getLast? := by
  induction l with
  | nil => exact absurd rfl h
  | cons x xs ih =>
    by_cases hx : p x = true
    · rw [List.dropWhile_cons, if_pos hx] at h ⊢
      rw [ih h]
      have hxs : xs ≠ [] := by
        intro he
        rw [he] at h
        exact h rfl
      cases xs with
      | nil => exact absurd rfl hxs
      | cons y ys => exact (List.getLast?_cons_cons).symm
    · rw [List.dropWhile_cons, if_neg hx]

theorem mem_of_getLast?_eq {α : Type} (l : List α) (a : α) (h : l.getLast? = some a) :
    a ∈ l := by
  induction l with
  | nil => exact Option.noConfusion h
  | cons x xs ih =>
    cases xs with
    | nil =>
      have : x = a := Option.some.inj h
      rw [← this]
      exact List.mem_cons_self x []
    | cons y ys =>
      rw [List.getLast?_cons_cons] at h
      exact List.mem_cons_of_mem _ (ih h)

theorem trimChars_head_not (l : List Char) (a : Char) (t : List Char)
    (h : trimChars l = a :: t) : isJsWS a = false := by
  unfold trimChars at h
  have hne : List.dropWhile isJsWS (List.dropWhile isJsWS l).reverse ≠ [] := by
    intro he
    rw [he] at h
    exact List.noConfusion h
  have h1 : (List.dropWhile isJsWS (List.dropWhile isJsWS l).reverse).getLast? =
      some a := by
    rw [← List.head?_reverse, h]
    rfl
  rw [getLast?_dropWhile _ _ hne, List.getLast?_reverse] at h1
  cases hA : List.dropWhile isJsWS l with
  | nil => rw [hA] at h1; exact Option.noConfusion h1
  | cons b bs =>
    rw [hA] at h1
    have hb : b = a := Option.some.inj h1
    rw [← hb]
    exact dropWhile_head_not isJsWS l b bs hA

theorem trimChars_getLast_not (l : List Char) (a : Char)
    (h : (trimChars l).getLast? = some a) : isJsWS a = false := by
  unfold trimChars at h
  rw [List.getLast?_reverse] at h
  cases hB : List.dropWhile isJsWS (List.dropWhile isJsWS l).reverse with
  | nil => rw [hB] at h; exact Option.noConfusion h
  | cons b bs =>
    rw [hB] at h
    have hb : b = a := Option.some.inj (by simpa using h)
    rw [← hb]
    exact dropWhile_head_not isJsWS _ b bs hB

theorem trimChars_eq_self (l : List Char)
    (hh : ∀ a t, l = a :: t → isJsWS a = false)
    (hl : ∀ a, l.getLast? = some a → isJsWS a = false) : trimChars l = l := by
  unfold trimChars
  rw [dropWhile_eq_self_of_head _ _ hh]
  rw [dropWhile_eq_self_of_head _ l.reverse (fun a t hat => by
    have : l.reverse.head? = some a := by rw [hat]; rfl
    rw [List.head?_reverse] at this
    exact hl a this)]
  exact List.reverse_reverse l

theorem trimChars_idem (l : List Char) : trimChars (trimChars l) = trimChars l :=
  trimChars_eq_self _ (trimChars_head_not l) (trimChars_getLast_not l)

theorem jsTrim_jsTrim (s : String) : jsTrim (jsTrim s) = jsTrim s :=
  congrArg String.mk (trimChars_idem s.data)

theorem trimChars_eq_self_of_all (l : List Char)
    (h : ∀ c ∈ l, isJsWS c = false) : trimChars l = l :=
  trimChars_eq_self l
    (fun a t hat => h a (by rw [hat]; exact List.mem_cons_self a t))
    (fun a ha => h a (mem_of_getLast?_eq l a ha))

theorem idChar_not_ws (c : Char) (h : idChar c = true) : isJsWS c = false := by
  cases hws : isJsWS c with
  | false => rfl
  | true =>
    exfalso
    have hws2 := hws
    simp only [isJsWS, Bool.or_eq_true, beq_iff_eq] at hws2
    rcases hws2 with ((((rfl | rfl) | rfl) | rfl) | rfl) | rfl <;> exact absurd h (by decide)

theorem testIdPattern_trim_fix (s : String) (h : testIdPattern s = true) :
    jsTrim s = s := by
  have h2 : s.data.all idChar = true := by
    cases hall2 : s.data.all idChar with
    | true => rfl
    | false =>
      unfold testIdPattern at h
      rw [hall2, Bool.and_false] at h
      exact Bool.noConfusion h
  have hall : ∀ c ∈ s.data, isJsWS c = false := fun c hc =>
    idChar_not_ws c (List.all_eq_true.mp h2 c hc)
  unfold jsTrim
  rw [trimChars_eq_self_of_all _ hall]

theorem nodeCheck_none_inv (ln i n : String) (a l : List String)
    (h : nodeCheck ln i n a l = none) :
    testIdPattern i = true ∧ n ≠ "" ∧ i ∉ a ∧ i ∉ l := by
  unfold nodeCheck at h
  split at h
  · exact Option.noConfusion h
  · split at h
    · exact Option.noConfusion h
    · split at h
      · exact Option.noConfusion h
      · rename_i h1 h2 h3
        refine ⟨?_, h2, fun hc => h3 (Or.inl hc), fun hc => h3 (Or.inr hc)⟩
        have h4 := (not_or.mp h1).2
        cases hb : testIdPattern i with
        | false => exact absurd hb h4
        | true => rfl

theorem fieldStr_trim_fix_of_ne (o : Option String) (h : fieldStr o ≠ "") :
    jsTrim (fieldStr o) = fieldStr o := by
  unfold fieldStr at h ⊢
  by_cases ht : truthyS o = true
  · rw [if_pos ht]
    exact jsTrim_jsTrim _
  · rw [if_neg ht] at h
    exact absurd rfl h

theorem trimmedT_mkNode (levelName : String) (rid rname rimg : Option String)
    (runi : RawVal) (kids : PKids)
    (hid : jsTrim (fieldStr rid) = fieldStr rid)
    (hnm : jsTrim (fieldStr rname) = fieldStr rname)
    (hne : fieldStr rname ≠ "")
    (hk : trimmedK kids = true) :
    trimmedT (mkNode levelName rid rname rimg runi kids) = true := by
  unfold mkNode
  split
  · simp [trimmedT, trimmedK, hid, hnm, hne, hk]
  · split
    · simp [trimmedT, trimmedK, hid, hnm, hne, hk]
    · simp [trimmedT, trimmedK, hid, hnm, hne]


mutual
theorem procT_trimmed : ∀ (levelName : String) (t : RawTree) (allIds ids : List String)
    (out : PTree) (a2 i2 : List String),
    procT levelName t allIds ids = .ok (out, a2, i2) → trimmedT out = true
  | levelName, .mk rid rname rimg runi rsub rexec, allIds, ids, out, a2, i2, h => by
    simp only [procT] at h
    cases hchk : nodeCheck levelName (fieldStr rid) (fieldStr rname) allIds ids with
    | some e =>
      simp only [hchk] at h
      exact Except.noConfusion h
    | none =>
      simp only [hchk] at h
      obtain ⟨hid, hname, -, -⟩ := nodeCheck_none_inv _ _ _ _ _ hchk
      have hidfix := testIdPattern_trim_fix _ hid
      have hnmfix := fieldStr_trim_fix_of_ne rname hname
      by_cases hv : levelName = "Variación"
      · simp only [if_pos hv] at h
        cases hsub : processVariations rsub "Sub-Variación" (fieldStr rid :: allIds) with
        | error e =>
          simp only [hsub] at h
          exact Except.noConfusion h
        | ok pr =>
          obtain ⟨pl, a3⟩ := pr
          simp only [hsub] at h
          cases h
          have hsubt := procV_trimmed _ _ _ _ _ hsub
          refine trimmedT_mkNode _ _ _ _ _ _ hidfix hnmfix hname ?_
          cases pl with
          | nil => rfl
          | cons a b => simpa [mkKids, trimmedK] using hsubt
      · simp only [if_neg hv] at h
        by_cases hs : levelName = "Sub-Variación"
        · simp only [if_pos hs] at h
          cases hsub : processVariations rexec "Tipo Ejecución" (fieldStr rid :: allIds) with
          | error e =>
            simp only [hsub] at h
            exact Except.noConfusion h
          | ok pr =>
            obtain ⟨pl, a3⟩ := pr
            simp only [hsub] at h
            cases h
            have hsubt := procV_trimmed _ _ _ _ _ hsub
            refine trimmedT_mkNode _ _ _ _ _ _ hidfix hnmfix hname ?_
            cases pl with
            | nil => rfl
            | cons a b => simpa [mkKids, trimmedK] using hsubt
        · simp only [if_neg hs] at h
          cases h
          exact trimmedT_mkNode _ _ _ _ _ _ hidfix hnmfix hname rfl
termination_by levelName t _ _ _ _ _ _ => sizeOf t
theorem procV_trimmed : ∀ (k : RawKids) (levelName : String) (allIds : List String)
    (out : PForest) (a2 : List String),
    processVariations k levelName allIds = .ok (out, a2) → trimmedF out = true
  | .undef, _, _, _, _, h => by
    cases h
    rfl
  | .arr l, levelName, allIds, out, a2, h => by
    simp only [processVariations] at h
    exact procF_trimmed _ _ _ _ _ _ h
termination_by k _ _ _ _ _ => sizeOf k
theorem procF_trimmed : ∀ (levelName : String) (l : RawForest) (allIds ids : List String)
    (out : PForest) (a2 : List String),
    procF levelName l allIds ids = .ok (out, a2) → trimmedF out = true
  | _, .nil, _, _, _, _, h => by
    cases h
    rfl
  | levelName, .cons t ts, allIds, ids, out, a2, h => by
    simp only [procF] at h
    cases hT : procT levelName t allIds ids with
    | error e =>
      simp only [hT] at h
      exact Except.noConfusion h
    | ok pr =>
      obtain ⟨pt, a1, i1⟩ := pr
      simp only [hT] at h
      cases hF : procF levelName ts a1 i1 with
      | error e =>
        simp only [hF] at h
        exact Except.noConfusion h
      | ok pr2 =>
        obtain ⟨pts, a3⟩ := pr2
        simp only [hF] at h
        cases h
        have h1 := procT_trimmed _ _ _ _ _ _ _ hT
        have h2 := procF_trimmed _ _ _ _ _ _ hF
        simp [trimmedF, h1, h2]
termination_by levelName l _ _ _ _ _ => sizeOf l
end

/-- C5 counterexample: at the base exercise level neither id nor name is
trimmed: a create request with baseName ` Padded ` succeeds and the
committed document stores the name with its surrounding whitespace, while
the claim promises the normalized output contains the trimmed name. -/
theorem c5_counterexample :
    saveExercise ⟨[], "s"⟩
        ⟨none, none, some "s", some "G", some "ex", some " Padded ", .undef⟩ =
      ⟨200, some [⟨"G", [⟨"ex", " Padded ", none⟩]⟩]⟩ ∧
    jsTrim " Padded " ≠ " Padded " :=
  ⟨rfl, by decide⟩

/-- C5 (amended): at the three nested levels (variation, sub-variation,
execution type) id and name are trimmed before any check; when the trimmed
id passes the pattern check and the trimmed name is empty the submission
fails with the empty-name error, and every node of a successful output
carries a trim-fixed id and a trim-fixed non-empty name.  (At the base
exercise level the raw, untrimmed id and name are used, see the
counterexample.) -/
theorem c5_trimming :
    (∀ (levelName : String) (rid rname rimg : Option String) (runi : RawVal)
        (rsub rexec : RawKids) (ts : RawForest) (allIds ids : List String),
      testIdPattern (jsTrim (rid.getD "")) = true →
      jsTrim (rname.getD "") = "" →
      procF levelName (.cons (.mk rid rname rimg runi rsub rexec) ts) allIds ids =
        .error ("Nombre de " ++ levelName ++ " vacío.")) ∧
    (∀ (levelData : RawKids) (levelName : String) (allIds : List String)
        (out : PForest) (a2 : List String),
      processVariations levelData levelName allIds = .ok (out, a2) →
      trimmedF out = true) := by
  constructor
  · intro levelName rid rname rimg runi rsub rexec ts allIds ids hid hnm
    have hfid : fieldStr rid = jsTrim (rid.getD "") := by
      by_cases ht : truthyS rid = true
      · unfold fieldStr
        rw [if_pos ht]
      · exfalso
        cases rid with
        | none => exact absurd hid (by decide)
        | some s =>
          have hs : s = "" := by
            by_contra hs
            exact ht (by simp [truthyS, hs])
          rw [hs] at hid
          exact absurd hid (by decide)
    have hfname : fieldStr rname = "" := by
      unfold fieldStr
      by_cases ht : truthyS rname = true
      · rw [if_pos ht]
        exact hnm
      · rw [if_neg ht]
    have hchk : nodeCheck levelName (fieldStr rid) (fieldStr rname) allIds ids =
        some ("Nombre de " ++ levelName ++ " vacío.") := by
      unfold nodeCheck
      rw [if_neg (by
        rintro (hc | hc)
        · rw [hfid] at hc
          rw [hc] at hid
          exact absurd hid (by decide)
        · rw [hfid] at hc
          rw [hc] at hid
          exact Bool.noConfusion hid), if_pos hfname]
    simp only [procF, procT, hchk]
  · intro levelData levelName allIds out a2 h
    exact procV_trimmed _ _ _ _ _ h

/-- Witness for `c5_trimming`: a variation with a valid id and an
all-whitespace name fails with the empty-name error, and a successful
output is trim-fixed. -/
theorem c5_trimming_witness :
    procF "Variación"
        (.cons (.mk (some "good-id") (some "   ") none .undef .undef .undef) .nil) [] [] =
      .error "Nombre de Variación vacío." ∧
    trimmedF (.cons (.mk "v" "V" none false .undef .undef) .nil) = true :=
  ⟨c5_trimming.1 "Variación" (some "good-id") (some "   ") none .undef .undef .undef
      .nil [] [] (by decide) (by decide),
    c5_trimming.2 (.arr (.cons (.mk (some "v") (some "V") none .undef .undef .undef) .nil))
      "Variación" [] (.cons (.mk "v" "V" none false .undef .undef) .nil) ["v"] rfl⟩

theorem idChar_false_of_bad (c : Char)
    (h : ('A' ≤ c ∧ c ≤ 'Z') ∨ c = '_' ∨ c = ' ') : idChar c = false := by
  rcases h with ⟨h1, h2⟩ | rfl | rfl
  · cases hic : idChar c with
    | false => rfl
    | true =>
      exfalso
      have hic2 := hic
      simp only [idChar, Bool.or_eq_true, Bool.and_eq_true, decide_eq_true_eq,
        beq_iff_eq] at hic2
      rcases hic2 with (⟨ha, _⟩ | ⟨_, h9⟩) | rfl
      · exact absurd (le_trans ha h2) (by decide)
      · exact absurd (le_trans h1 h9) (by decide)
      · exact absurd h1 (by decide)
  · decide
  · decide

theorem testIdPattern_false_of_bad (s : String)
    (h : ∃ c ∈ s.data, ('A' ≤ c ∧ c ≤ 'Z') ∨ c = '_' ∨ c = ' ') :
    testIdPattern s = false := by
  rcases h with ⟨c, hc, hbad⟩
  cases ht : testIdPattern s with
  | false => rfl
  | true =>
    exfalso
    have h2 : s.data.all idChar = true := by
      cases hall2 : s.data.all idChar with
      | true => rfl
      | false =>
        unfold testIdPattern at ht
        rw [hall2, Bool.and_false] at ht
        exact Bool.noConfusion ht
    have := List.all_eq_true.mp h2 c hc
    rw [idChar_false_of_bad c hbad] at this
    exact Bool.noConfusion this

/-- C6 counterexample: a variation submitted with id `abc ` (containing a
space) is accepted: trimming removes the surrounding whitespace before the
pattern test, so normalization succeeds instead of failing with InvalidId
as the claim states for every id containing a space. -/
theorem c6_counterexample :
    procF "Variación"
        (.cons (.mk (some "abc ") (some "V") none .undef .undef .undef) .nil) [] [] =
      .ok (.cons (.mk "abc" "V" none false .undef .undef) .nil, ["abc"]) ∧
    ' ' ∈ "abc ".data :=
  ⟨rfl, by decide⟩

/-- C6 (amended): an id whose trimmed form still contains an uppercase
letter, an underscore, or a space fails with the InvalidId error at the
nested levels (trimming removes only surrounding whitespace, so uppercase
letters and underscores always fail); at the base level the raw id is
tested against the pattern and any such character causes the 400
rejection with no commit. -/
theorem c6_invalid_chars :
    (∀ (levelName : String) (rid rname rimg : Option String) (runi : RawVal)
        (rsub rexec : RawKids) (ts : RawForest) (allIds ids : List String),
      (∃ c ∈ (jsTrim (rid.getD "")).data, ('A' ≤ c ∧ c ≤ 'Z') ∨ c = '_' ∨ c = ' ') →
      procF levelName (.cons (.mk rid rname rimg runi rsub rexec) ts) allIds ids =
        .error ("ID de " ++ levelName ++ " inválido.")) ∧
    (∀ (st : StoreState) (req : SaveReq) (s : String),
      req.baseId = some s →
      (∃ c ∈ s.data, ('A' ≤ c ∧ c ≤ 'Z') ∨ c = '_' ∨ c = ' ') →
      saveExercise st req = ⟨400, none⟩) := by
  constructor
  · intro levelName rid rname rimg runi rsub rexec ts allIds ids hbad
    have hchk : nodeCheck levelName (fieldStr rid) (fieldStr rname) allIds ids =
        some ("ID de " ++ levelName ++ " inválido.") := by
      unfold nodeCheck
      rw [if_pos ?_]
      by_cases ht : truthyS rid = true
      · refine Or.inr ?_
        have hf : fieldStr rid = jsTrim (rid.getD "") := by
          unfold fieldStr
          rw [if_pos ht]
        rw [hf]
        exact testIdPattern_false_of_bad _ hbad
      · refine Or.inl ?_
        unfold fieldStr
        rw [if_neg ht]
    simp only [procF, procT, hchk]
  · intro st req s hb hbad
    have hf : testIdPattern (req.baseId.getD "") = false := by
      rw [hb]
      exact testIdPattern_false_of_bad s hbad
    simp only [saveExercise]
    rw [if_pos (Or.inr (Or.inr (Or.inr (Or.inl hf))))]

/-- Witness for `c6_invalid_chars`: an uppercase id fails at the variation
level, and an underscore in the base id yields the 400 rejection. -/
theorem c6_invalid_chars_witness :
    procF "Variación"
        (.cons (.mk (some "Ab") (some "N") none .undef .undef .undef) .nil) [] [] =
      .error "ID de Variación inválido." ∧
    saveExercise ⟨[], "s"⟩ ⟨none, none, some "s", some "G", some "x_y", some "X", .undef⟩ =
      ⟨400, none⟩ :=
  ⟨c6_invalid_chars.1 "Variación" (some "Ab") (some "N") none .undef .undef .undef
      .nil [] [] (by decide),
    c6_invalid_chars.2 ⟨[], "s"⟩
      ⟨none, none, some "s", some "G", some "x_y", some "X", .undef⟩ "x_y" rfl (by decide)⟩


theorem testIdPattern_ne_empty (s : String) (h : testIdPattern s = true) : s ≠ "" := by
  intro hs
  rw [hs] at h
  exact absurd h (by decide)

theorem fieldStr_some_fix (x : String) (hne : x ≠ "") (hfix : jsTrim x = x) :
    fieldStr (some x) = x := by
  unfold fieldStr
  rw [if_pos (by simp [truthyS, hne])]
  exact hfix

theorem normImg_normImg (o : Option String) : normImg (normImg o) = normImg o := by
  cases o with
  | none => rfl
  | some s =>
    by_cases hs : s = ""
    · simp [normImg, hs]
    · simp [normImg, hs]

theorem mkKids_clearUni (pl : PForest) : mkKids (clearUniF pl) = clearUniK (mkKids pl) := by
  cases pl with
  | nil => rfl
  | cons a b => simp [clearUniF, clearUniK, mkKids]

mutual
theorem procT_renorm : ∀ (levelName : String) (t : RawTree) (allIds ids : List String)
    (out : PTree) (a2 i2 : List String),
    procT levelName t allIds ids = .ok (out, a2, i2) →
    procT levelName (toRawT out) allIds ids = .ok (clearUniT out, a2, i2)
  | levelName, .mk rid rname rimg runi rsub rexec, allIds, ids, out, a2, i2, h => by
    simp only [procT] at h
    cases hchk : nodeCheck levelName (fieldStr rid) (fieldStr rname) allIds ids with
    | some e =>
      simp only [hchk] at h
      exact Except.noConfusion h
    | none =>
      simp only [hchk] at h
      obtain ⟨hid, hname, -, -⟩ := nodeCheck_none_inv _ _ _ _ _ hchk
      have hA : fieldStr (some (fieldStr rid)) = fieldStr rid :=
        fieldStr_some_fix _ (testIdPattern_ne_empty _ hid) (testIdPattern_trim_fix _ hid)
      have hB : fieldStr (some (fieldStr rname)) = fieldStr rname :=
        fieldStr_some_fix _ hname (fieldStr_trim_fix_of_ne rname hname)
      by_cases hv : levelName = "Variación"
      · simp only [if_pos hv] at h
        cases hsub : processVariations rsub "Sub-Variación" (fieldStr rid :: allIds) with
        | error e =>
          simp only [hsub] at h
          exact Except.noConfusion h
        | ok pr =>
          obtain ⟨pl, a3⟩ := pr
          simp only [hsub] at h
          cases h
          have hsub2 := procV_renorm _ _ _ _ _ hsub
          simp only [procT, mkNode, if_pos hv, toRawT, toRawK, clearUniT, clearUniK]
          rw [hA, hB]
          simp only [hchk, if_pos hv, hsub2, mkKids_clearUni, normImg_normImg,
            RawVal.isTrueLiteral]
      · by_cases hs : levelName = "Sub-Variación"
        · simp only [if_neg hv, if_pos hs] at h
          cases hsub : processVariations rexec "Tipo Ejecución" (fieldStr rid :: allIds) with
          | error e =>
            simp only [hsub] at h
            exact Except.noConfusion h
          | ok pr =>
            obtain ⟨pl, a3⟩ := pr
            simp only [hsub] at h
            cases h
            have hsub2 := procV_renorm _ _ _ _ _ hsub
            simp only [procT, mkNode, if_neg hv, if_pos hs, toRawT, toRawK,
              clearUniT, clearUniK]
            rw [hA, hB]
            simp only [hchk, if_neg hv, if_pos hs, hsub2, mkKids_clearUni,
              normImg_normImg, RawVal.isTrueLiteral]
        · simp only [if_neg hv, if_neg hs] at h
          cases h
          simp only [procT, mkNode, if_neg hv, if_neg hs, toRawT, toRawK,
            clearUniT, clearUniK]
          rw [hA, hB]
          simp only [hchk, if_neg hv, if_neg hs, normImg_normImg, RawVal.isTrueLiteral]
termination_by levelName t _ _ _ _ _ _ => sizeOf t
theorem procV_renorm : ∀ (k : RawKids) (levelName : String) (allIds : List String)
    (out : PForest) (a2 : List String),
    processVariations k levelName allIds = .ok (out, a2) →
    processVariations (toRawK (mkKids out)) levelName allIds = .ok (clearUniF out, a2)
  | .undef, levelName, allIds, out, a2, h => by
    cases h
    rfl
  | .arr l, levelName, allIds, out, a2, h => by
    simp only [processVariations] at h
    cases out with
    | nil =>
      cases l with
      | nil =>
        cases h
        rfl
      | cons t ts =>
        exfalso
        simp only [procF] at h
        cases hT : procT levelName t allIds [] with
        | error e =>
          simp only [hT] at h
          exact Except.noConfusion h
        | ok pr =>
          obtain ⟨pt, a1, i1⟩ := pr
          simp only [hT] at h
          cases hF : procF levelName ts a1 i1 with
          | error e =>
            simp only [hF] at h
            exact Except.noConfusion h
          | ok pr2 =>
            obtain ⟨pts, a3⟩ := pr2
            simp only [hF] at h
            have := (Prod.mk.inj (Except.ok.inj h)).1
            exact PForest.noConfusion this
    | cons a b =>
      have h2 := procF_renorm _ _ _ _ _ _ h
      simp only [mkKids, toRawK, processVariations]
      exact h2
termination_by k _ _ _ _ _ => sizeOf k
theorem procF_renorm : ∀ (levelName : String) (l : RawForest) (allIds ids : List String)
    (out : PForest) (a2 : List String),
    procF levelName l allIds ids = .ok (out, a2) →
    procF levelName (toRawF out) allIds ids = .ok (clearUniF out, a2)
  | levelName, .nil, allIds, ids, out, a2, h => by
    cases h
    rfl
  | levelName, .cons t ts, allIds, ids, out, a2, h => by
    simp only [procF] at h
    cases hT : procT levelName t allIds ids with
    | error e =>
      simp only [hT] at h
      exact Except.noConfusion h
    | ok pr =>
      obtain ⟨pt, a1, i1⟩ := pr
      simp only [hT] at h
      cases hF : procF levelName ts a1 i1 with
      | error e =>
        simp only [hF] at h
        exact Except.noConfusion h
      | ok pr2 =>
        obtain ⟨pts, a3⟩ := pr2
        simp only [hF] at h
        cases h
        have h1 := procT_renorm _ _ _ _ _ _ _ hT
        have h2 := procF_renorm _ _ _ _ _ _ hF
        simp only [toRawF, clearUniF, procF]
        simp only [h1, h2]
termination_by levelName l _ _ _ _ _ => sizeOf l
end


/-- C4 counterexample: normalizing a variation submitted with the string
`isUnilateral = "true"` yields the flag `true`; running normalization again
on the JSON round-trip of that output (where the flag is now the boolean
`true`, not the string) succeeds but flips the flag to `false`, because
only the string literal `true` maps to `true` - so the round trip is not
idempotent. -/
theorem c4_counterexample :
    processVariations
        (.arr (.cons (.mk (some "v") (some "V") none (.str "true") .undef .undef) .nil))
        "Variación" [] =
      .ok (.cons (.mk "v" "V" none true .undef .undef) .nil, ["v"]) ∧
    processVariations
        (toRawK (mkKids (.cons (.mk "v" "V" none true .undef .undef) .nil)))
        "Variación" [] =
      .ok (.cons (.mk "v" "V" none false .undef .undef) .nil, ["v"]) ∧
    (PTree.mk "v" "V" none false .undef .undef).isUnilateral ≠
      (PTree.mk "v" "V" none true .undef .undef).isUnilateral :=
  ⟨rfl, rfl, by decide⟩

/-- C4 (amended): re-normalizing the serialize/deserialize round-trip of a
successful normalization output always succeeds, reaches the same final id
set, and returns the same tree except that every `isUnilateral` flag is
reset to `false` (ids, names, imageUrl fields and the presence or absence
of children fields are all preserved); the round trip is therefore
idempotent exactly on outputs whose `isUnilateral` flags are all `false`. -/
theorem c4_renormalize_clears_uni :
    ∀ (levelData : RawKids) (levelName : String) (allIds : List String)
      (out : PForest) (a2 : List String),
      processVariations levelData levelName allIds = .ok (out, a2) →
      processVariations (toRawK (mkKids out)) levelName allIds =
        .ok (clearUniF out, a2) :=
  fun levelData levelName allIds out a2 h =>
    procV_renorm levelData levelName allIds out a2 h

/-- Witness for `c4_renormalize_clears_uni` at a concrete two-level tree. -/
theorem c4_renormalize_clears_uni_witness :
    processVariations
        (toRawK (mkKids (.cons (.mk "v" "V" none true
          (.arr (.cons (.mk "sv" "SV" (some "u.png") false .undef .undef) .nil)) .undef) .nil)))
        "Variación" [] =
      .ok (clearUniF (.cons (.mk "v" "V" none true
          (.arr (.cons (.mk "sv" "SV" (some "u.png") false .undef .undef) .nil)) .undef) .nil),
        ["sv", "v"]) :=
  c4_renormalize_clears_uni
    (.arr (.cons (.mk (some "v") (some "V") none (.str "true")
      (.arr (.cons (.mk (some "sv") (some "SV") (some "u.png") (.str "no") .undef .undef) .nil))
      .undef) .nil))
    "Variación" [] _ _ rfl

end Fitracker
